import Mathlib

/-!
Verification of the UD-MIS simulated-annealing notebook
(`Week2_Rydberg_Atoms/Task1.ipynb`).

The Python code is embedded shallowly:
* numpy floats are modelled by exact rationals (`ℚ`);
* the boolean numpy adjacency matrix is modelled by a function
  `ℕ → ℕ → Bool` built by functional update (every read the source
  performs is in range, so the two views agree on all executed paths);
* the notebook-global variables `u` and `graph`, which the method bodies
  read directly (as opposed to the instance fields `self.u` / `self.graph`),
  are passed as explicit parameters `g_u` / `g_graph`;
* the floating-point `**` and `exp` of the schedule and of the Metropolis
  rule are abstracted as function parameters `powf` / `expf`.
-/

set_option maxRecDepth 4000

namespace UDMISModel

/-- Numeric value of a boolean occupation, the way Python arithmetic
treats `True` / `False`. -/
def occVal (b : Bool) : ℚ := if b then 1 else 0

/-- Squared Euclidean distance between two coordinate pairs.  The source
computes `dij = np.sqrt((x_i - x_j)**2. + (y_i - y_j)**2.)` and tests
`dij <= 1.0`; since `Real.sqrt` is monotone and `Real.sqrt 1 = 1`, that test
is equivalent to comparing the squared distance with `1`, which keeps the
embedding inside `ℚ` (the equivalence is proved in `edges_iff_dist_le_one`). -/
def sqDist (p q : ℚ × ℚ) : ℚ := (p.1 - q.1) ^ 2 + (p.2 - q.2) ^ 2

/-- Functional model of writing entry `(i, j)` of the boolean numpy matrix
(`edges[i,j] = v`). -/
def updE (e : ℕ → ℕ → Bool) (i j : ℕ) (v : Bool) : ℕ → ℕ → Bool :=
  fun a b => if a = i ∧ b = j then v else e a b

/-- The state of a `UDMIS` instance: the fields assigned in
`UDMIS.__init__` (`self.u`, `self.graph`, `self.num_vertices`,
`self.occupations`, `self.edges`). -/
structure UDMIS where
  u : ℚ
  graph : List (ℚ × ℚ)
  num_vertices : ℕ
  occupations : List Bool
  edges : ℕ → ℕ → Bool

/-- `UDMIS.find_edges`.  `g_graph` is the notebook-global variable `graph`
that the body reads (`x_i, y_i = graph[i]`) — not the instance field
`self.graph`.  The loop bounds come from `self.num_vertices`.  Matrix
entries start at `False` (`np.zeros(..., dtype=bool)`) and both `(i, j)`
and `(j, i)` are set when the distance test succeeds. -/
def UDMIS.find_edges (self : UDMIS) (g_graph : List (ℚ × ℚ)) : ℕ → ℕ → Bool :=
  let n := self.num_vertices
  (List.range (n - 1)).foldl (fun edges i =>
    let pi := g_graph.getD i (0, 0)
    (List.range' (i + 1) (n - (i + 1))).foldl (fun edges j =>
      let pj := g_graph.getD j (0, 0)
      if sqDist pi pj ≤ 1 then updE (updE edges i j true) j i true else edges)
      edges)
    (fun _ _ => false)

/-- `UDMIS.__init__`.  The pseudo-random initial occupation
(`np.random.rand(n) < 0.5`) is modelled by the explicit parameter
`randocc`; `g_graph` is the notebook-global `graph` that `find_edges`
reads at construction time.  The constructor performs no validation of
`u` or of `graph` (the `print` call is side-effect only and dropped). -/
def UDMIS.init (u : ℚ) (graph : List (ℚ × ℚ)) (g_graph : List (ℚ × ℚ))
    (randocc : List Bool) : UDMIS :=
  let pre : UDMIS :=
    { u := u, graph := graph, num_vertices := graph.length,
      occupations := randocc, edges := fun _ _ => false }
  { pre with edges := pre.find_edges g_graph }

/-- `UDMIS.energy`.  `g_u` is the notebook-global variable `u` read by
`return u*interaction_term - vertex_term` — not the instance field
`self.u`.  The two loop accumulators (`interaction_term`, `vertex_term`)
are carried as a pair; after the outer loop the source adds the missed
last vertex (`self.occupations[self.num_vertices-1]`). -/
def UDMIS.energy (self : UDMIS) (g_u : ℚ) : ℚ :=
  let n := self.num_vertices
  let p : ℚ × ℚ :=
    (List.range (n - 1)).foldl (fun acc i =>
      ((List.range' (i + 1) (n - (i + 1))).foldl (fun s j =>
          if self.edges i j then
            s + occVal (self.occupations.getD i false) *
                occVal (self.occupations.getD j false)
          else s) acc.1,
       acc.2 + occVal (self.occupations.getD i false)))
      (0, 0)
  let vertex_term := p.2 + occVal (self.occupations.getD (n - 1) false)
  g_u * p.1 - vertex_term

/-- `UDMIS.energy_diff`.  `connections = np.where(self.edges[i,:])[0]`
followed by `num_adjacent_occupied = sum(self.occupations[connections])`
is the conditional sum over the `num_vertices` columns of row `i` of the
adjacency matrix.  `g_u` is the notebook-global `u` read by the body. -/
def UDMIS.energy_diff (self : UDMIS) (g_u : ℚ) (i : ℕ) : ℚ :=
  let num_adjacent_occupied : ℚ :=
    (List.range self.num_vertices).foldl
      (fun s j =>
        if self.edges i j then s + occVal (self.occupations.getD j false) else s) 0
  if self.occupations.getD i false then
    -g_u * num_adjacent_occupied + 1
  else
    g_u * num_adjacent_occupied + (-1)

/-- Toggling the occupation of vertex `i`: the in-place single-spin flip
that the step engine applies on acceptance (the operation quantified in
the delta/full-consistency invariant). -/
def UDMIS.toggle (self : UDMIS) (i : ℕ) : UDMIS :=
  { self with
    occupations := self.occupations.set i (!self.occupations.getD i false) }

/-- Modelled from the spec: the Metropolis acceptance decision of
`mc_step` (file `abstract_udmis.py`, imported by the notebook but not
present in the sources).  Per spec section 4.3: accept unconditionally
when the proposed energy delta is nonpositive; otherwise accept iff a
uniform draw `r` is below `exp(-delta/T)`, with `T ≤ 0` special-cased to
the strict greedy rule instead of evaluating the exponential.  The
floating-point exponential is abstracted as the parameter `expf`. -/
def mc_step_accept (expf : ℚ → ℚ) (T delta r : ℚ) : Bool :=
  if delta ≤ 0 then true
  else if T ≤ 0 then false
  else decide (r < expf (-delta / T))

/-- The annealing temperature array of the notebook driver:
`T = T_i * ((T_f/T_i) ** (t/N))` for `t = np.arange(N+1)`.  The
floating-point power is abstracted as the parameter `powf`. -/
def T_schedule (powf : ℚ → ℚ → ℚ) (T_i T_f : ℚ) (N : ℕ) : List ℚ :=
  (List.range (N + 1)).map
    (fun (t : ℕ) => T_i * powf (T_f / T_i) ((t : ℚ) / (N : ℚ)))

/-- The notebook's annealing loop
(`for t in range(N): E = udmis.mc_step(T=T[t])`), generic over the state
type and the step operation. -/
def anneal_run {σ : Type} (step : ℚ → σ → σ) (powf : ℚ → ℚ → ℚ)
    (T_i T_f : ℚ) (N : ℕ) (s0 : σ) : σ :=
  (List.range N).foldl (fun s t => step ((T_schedule powf T_i T_f N).getD t 0) s) s0

/-- A concrete two-vertex instance used to exhibit dependence of the
methods on the notebook globals. -/
def demoModel : UDMIS :=
  { u := 1, graph := [(0, 0), (0, 0)], num_vertices := 2,
    occupations := [true, true], edges := fun a b => a + b == 1 }

/-- A global coordinate list putting the two vertices within unit distance. -/
def demoNear : List (ℚ × ℚ) := [(0, 0), (0, 1/2)]

/-- A global coordinate list putting the two vertices far apart. -/
def demoFar : List (ℚ × ℚ) := [(0, 0), (0, 7)]

/-- A concrete one-vertex instance (edge-free) used as a witness input. -/
def demoSingle : UDMIS :=
  { u := 1, graph := [(0, 0)], num_vertices := 1,
    occupations := [true], edges := fun _ _ => false }

/-! ### Generic lemmas about the loop folds -/

theorem foldl_add_map (l : List ℕ) (A : ℕ → ℚ) (a : ℚ) :
    l.foldl (fun s i => s + A i) a = a + (l.map A).sum := by
  induction l generalizing a with
  | nil => simp
  | cons x xs ih => simp [List.foldl_cons, ih, add_assoc]

theorem foldl_ite_add (l : List ℕ) (c : ℕ → Bool) (A : ℕ → ℚ) (a : ℚ) :
    l.foldl (fun s i => if c i then s + A i else s) a
      = a + (l.map (fun i => if c i then A i else 0)).sum := by
  induction l generalizing a with
  | nil => simp
  | cons x xs ih =>
    cases hc : c x <;> simp [List.foldl_cons, ih, hc, add_assoc]

theorem foldl_congr_mem {α β : Type} (l : List α) (F G : β → α → β) (a : β)
    (h : ∀ b : β, ∀ x ∈ l, F b x = G b x) : l.foldl F a = l.foldl G a := by
  induction l generalizing a with
  | nil => rfl
  | cons x xs ih =>
    rw [List.foldl_cons, List.foldl_cons, h a x (by simp)]
    exact ih _ (fun b y hy => h b y (by simp [hy]))

theorem foldl_pair (l : List ℕ) (F G : ℚ → ℕ → ℚ) (a b : ℚ) :
    l.foldl (fun acc i => (F acc.1 i, G acc.2 i)) (a, b)
      = (l.foldl F a, l.foldl G b) := by
  induction l generalizing a b with
  | nil => rfl
  | cons x xs ih => simp [List.foldl_cons, ih]

theorem map_sum_range (n : ℕ) (A : ℕ → ℚ) :
    ((List.range n).map A).sum = ∑ i ∈ Finset.range n, A i := by
  induction n with
  | zero => simp
  | succ m ih => rw [List.range_succ]; simp [ih, Finset.sum_range_succ]

theorem map_sum_range' (s len : ℕ) (A : ℕ → ℚ) :
    ((List.range' s len).map A).sum = ∑ i ∈ Finset.Ico s (s + len), A i := by
  induction len generalizing s with
  | zero => simp
  | succ m ih =>
    rw [List.range'_succ, List.map_cons, List.sum_cons, ih,
        show s + (m + 1) = s + 1 + m from by omega,
        Finset.sum_eq_sum_Ico_succ_bot (show s < s + 1 + m from by omega) A]

/-! ### Characterisation of `energy` and `energy_diff` as finite sums -/

/-- Numeric occupation of vertex `j` of an instance. -/
def UDMIS.ov (self : UDMIS) (j : ℕ) : ℚ := occVal (self.occupations.getD j false)

theorem energy_eq_sum (self : UDMIS) (g_u : ℚ) (h : 0 < self.num_vertices) :
    self.energy g_u =
      g_u * (∑ i ∈ Finset.range self.num_vertices,
               ∑ j ∈ Finset.Ico (i + 1) self.num_vertices,
                 if self.edges i j then self.ov i * self.ov j else 0)
        - ∑ i ∈ Finset.range self.num_vertices, self.ov i := by
  simp only [UDMIS.energy, UDMIS.ov]
  rw [foldl_pair (List.range (self.num_vertices - 1))
      (fun s i => (List.range' (i + 1) (self.num_vertices - (i + 1))).foldl
        (fun s j => if self.edges i j then
            s + occVal (self.occupations.getD i false) *
                occVal (self.occupations.getD j false) else s) s)
      (fun s i => s + occVal (self.occupations.getD i false)) 0 0]
  dsimp only
  rw [foldl_add_map (List.range (self.num_vertices - 1))
        (fun i => occVal (self.occupations.getD i false)) 0,
      map_sum_range, zero_add]
  rw [foldl_congr_mem (List.range (self.num_vertices - 1)) _
      (fun s i => s +
        ((List.range' (i + 1) (self.num_vertices - (i + 1))).map
          (fun j => if self.edges i j then
              occVal (self.occupations.getD i false) *
              occVal (self.occupations.getD j false) else 0)).sum) 0
      (fun b x _ => foldl_ite_add _ _ _ b)]
  rw [foldl_add_map (List.range (self.num_vertices - 1)) _ 0, map_sum_range, zero_add]
  have hsucc : self.num_vertices - 1 + 1 = self.num_vertices := by omega
  have hvert :
      (∑ i ∈ Finset.range (self.num_vertices - 1),
          occVal (self.occupations.getD i false))
        + occVal (self.occupations.getD (self.num_vertices - 1) false)
      = ∑ i ∈ Finset.range self.num_vertices,
          occVal (self.occupations.getD i false) := by
    rw [← Finset.sum_range_succ (fun i => occVal (self.occupations.getD i false))
          (self.num_vertices - 1), hsucc]
  have hinter :
      (∑ i ∈ Finset.range (self.num_vertices - 1),
        ((List.range' (i + 1) (self.num_vertices - (i + 1))).map
          (fun j => if self.edges i j then
              occVal (self.occupations.getD i false) *
              occVal (self.occupations.getD j false) else 0)).sum)
      = ∑ i ∈ Finset.range self.num_vertices,
          ∑ j ∈ Finset.Ico (i + 1) self.num_vertices,
            if self.edges i j then
              occVal (self.occupations.getD i false) *
              occVal (self.occupations.getD j false) else 0 := by
    rw [← hsucc, Finset.sum_range_succ]
    have hlast :
        (∑ j ∈ Finset.Ico (self.num_vertices - 1 + 1) (self.num_vertices - 1 + 1),
          if self.edges (self.num_vertices - 1) j then
            occVal (self.occupations.getD (self.num_vertices - 1) false) *
            occVal (self.occupations.getD j false) else 0) = 0 := by
      simp
    rw [hlast, add_zero]
    refine Finset.sum_congr rfl (fun i hi => ?_)
    rw [map_sum_range']
    have hmem : i < self.num_vertices - 1 := Finset.mem_range.mp hi
    rw [show i + 1 + (self.num_vertices - 1 + 1 - (i + 1)) = self.num_vertices - 1 + 1
          from by omega]
  rw [hvert, hinter]

theorem energy_diff_sum (self : UDMIS) (g_u : ℚ) (i : ℕ) :
    self.energy_diff g_u i =
      if self.occupations.getD i false then
        -g_u * (∑ j ∈ Finset.range self.num_vertices,
                  if self.edges i j then self.ov j else 0) + 1
      else
        g_u * (∑ j ∈ Finset.range self.num_vertices,
                  if self.edges i j then self.ov j else 0) + (-1) := by
  simp only [UDMIS.energy_diff, UDMIS.ov]
  rw [foldl_ite_add (List.range self.num_vertices) (fun j => self.edges i j)
      (fun j => occVal (self.occupations.getD j false)) 0,
      map_sum_range, zero_add]

/-! ### Characterisation of `find_edges` -/

theorem inner_fold_get (g : List (ℚ × ℚ)) (i : ℕ) (p0 : ℚ × ℚ) (l : List ℕ)
    (e0 : ℕ → ℕ → Bool) (a b : ℕ) :
    ((l.foldl (fun e j =>
        if sqDist p0 (g.getD j (0, 0)) ≤ 1 then updE (updE e i j true) j i true
        else e) e0) a b) = true
    ↔ e0 a b = true
      ∨ (a = i ∧ b ∈ l ∧ sqDist p0 (g.getD b (0, 0)) ≤ 1)
      ∨ (b = i ∧ a ∈ l ∧ sqDist p0 (g.getD a (0, 0)) ≤ 1) := by
  induction l generalizing e0 with
  | nil => simp
  | cons x xs ih =>
    rw [List.foldl_cons, ih]
    by_cases hc : sqDist p0 (g.getD x (0, 0)) ≤ 1
    · rw [if_pos hc]
      simp only [updE, List.mem_cons]
      constructor
      · rintro (h0 | h1 | h2)
        · split_ifs at h0 with hab1 hab2
          · exact Or.inr (Or.inr ⟨hab1.2, Or.inl hab1.1, by rw [hab1.1]; exact hc⟩)
          · exact Or.inr (Or.inl ⟨hab2.1, Or.inl hab2.2, by rw [hab2.2]; exact hc⟩)
          · exact Or.inl h0
        · exact Or.inr (Or.inl ⟨h1.1, Or.inr h1.2.1, h1.2.2⟩)
        · exact Or.inr (Or.inr ⟨h2.1, Or.inr h2.2.1, h2.2.2⟩)
      · rintro (h0 | ⟨hai, hbm, hd⟩ | ⟨hbi, ham, hd⟩)
        · left; split_ifs with hab1 hab2
          · rfl
          · rfl
          · exact h0
        · rcases hbm with hbx | hbxs
          · left; split_ifs with hab1 hab2
            · rfl
            · rfl
            · exact absurd ⟨hai, hbx⟩ hab2
          · exact Or.inr (Or.inl ⟨hai, hbxs, hd⟩)
        · rcases ham with hax | haxs
          · left; split_ifs with hab1 hab2
            · rfl
            · rfl
            · exact absurd ⟨hax, hbi⟩ hab1
          · exact Or.inr (Or.inr ⟨hbi, haxs, hd⟩)
    · rw [if_neg hc]
      simp only [List.mem_cons]
      constructor
      · rintro (h0 | ⟨hai, hbxs, hd⟩ | ⟨hbi, haxs, hd⟩)
        · exact Or.inl h0
        · exact Or.inr (Or.inl ⟨hai, Or.inr hbxs, hd⟩)
        · exact Or.inr (Or.inr ⟨hbi, Or.inr haxs, hd⟩)
      · rintro (h0 | ⟨hai, hbm, hd⟩ | ⟨hbi, ham, hd⟩)
        · exact Or.inl h0
        · rcases hbm with hbx | hbxs
          · subst hbx; exact absurd hd hc
          · exact Or.inr (Or.inl ⟨hai, hbxs, hd⟩)
        · rcases ham with hax | haxs
          · subst hax; exact absurd hd hc
          · exact Or.inr (Or.inr ⟨hbi, haxs, hd⟩)

theorem outer_fold_get (g : List (ℚ × ℚ)) (n : ℕ) (L : List ℕ)
    (e0 : ℕ → ℕ → Bool) (a b : ℕ) :
    ((L.foldl (fun edges i =>
        (List.range' (i + 1) (n - (i + 1))).foldl (fun e j =>
          if sqDist (g.getD i (0, 0)) (g.getD j (0, 0)) ≤ 1 then
            updE (updE e i j true) j i true
          else e) edges) e0) a b) = true
    ↔ e0 a b = true
      ∨ ∃ i ∈ L,
          (a = i ∧ b ∈ List.range' (i + 1) (n - (i + 1)) ∧
            sqDist (g.getD i (0, 0)) (g.getD b (0, 0)) ≤ 1)
        ∨ (b = i ∧ a ∈ List.range' (i + 1) (n - (i + 1)) ∧
            sqDist (g.getD i (0, 0)) (g.getD a (0, 0)) ≤ 1) := by
  induction L generalizing e0 with
  | nil => simp
  | cons x xs ih =>
    rw [List.foldl_cons, ih, inner_fold_get]
    simp only [List.mem_cons]
    constructor
    · rintro ((h0 | h1 | h2) | ⟨i, hmem, hcase⟩)
      · exact Or.inl h0
      · exact Or.inr ⟨x, Or.inl rfl, Or.inl h1⟩
      · exact Or.inr ⟨x, Or.inl rfl, Or.inr h2⟩
      · exact Or.inr ⟨i, Or.inr hmem, hcase⟩
    · rintro (h0 | ⟨i, hix | hixs, hcase⟩)
      · exact Or.inl (Or.inl h0)
      · subst hix
        rcases hcase with h1 | h2
        · exact Or.inl (Or.inr (Or.inl h1))
        · exact Or.inl (Or.inr (Or.inr h2))
      · exact Or.inr ⟨i, hixs, hcase⟩

theorem sqDist_comm (p q : ℚ × ℚ) : sqDist p q = sqDist q p := by
  simp only [sqDist]; ring

theorem find_edges_iff (self : UDMIS) (g : List (ℚ × ℚ)) (a b : ℕ) :
    self.find_edges g a b = true
    ↔ a ≠ b ∧ a < self.num_vertices ∧ b < self.num_vertices ∧
        sqDist (g.getD a (0, 0)) (g.getD b (0, 0)) ≤ 1 := by
  simp only [UDMIS.find_edges]
  rw [outer_fold_get]
  constructor
  · rintro (h0 | ⟨i, hmem, hcase⟩)
    · exact Bool.noConfusion h0
    · replace hmem : i < self.num_vertices - 1 := List.mem_range.mp hmem
      rcases hcase with ⟨hai, hbmem, hd⟩ | ⟨hbi, hamem, hd⟩
      · obtain ⟨k, hk, hbk⟩ := List.mem_range'.mp hbmem
        subst hai
        refine ⟨by omega, by omega, by omega, hd⟩
      · obtain ⟨k, hk, hak⟩ := List.mem_range'.mp hamem
        subst hbi
        exact ⟨by omega, by omega, by omega, by rw [sqDist_comm]; exact hd⟩
  · rintro ⟨hab, ha, hb, hd⟩
    right
    rcases Nat.lt_or_ge a b with hlt | hge
    · exact ⟨a, List.mem_range.mpr (by omega),
        Or.inl ⟨rfl, List.mem_range'.mpr ⟨b - (a + 1), by omega, by omega⟩, hd⟩⟩
    · have hlt : b < a := by omega
      exact ⟨b, List.mem_range.mpr (by omega),
        Or.inr ⟨rfl, List.mem_range'.mpr ⟨a - (b + 1), by omega, by omega⟩,
          by rw [sqDist_comm]; exact hd⟩⟩

theorem find_edges_symm (self : UDMIS) (g : List (ℚ × ℚ)) (a b : ℕ) :
    self.find_edges g a b = self.find_edges g b a := by
  cases hA : self.find_edges g a b <;> cases hB : self.find_edges g b a <;> try rfl
  · rcases (find_edges_iff self g b a).mp hB with ⟨hne, hbn, han, hd⟩
    have ht : self.find_edges g a b = true :=
      (find_edges_iff self g a b).mpr
        ⟨Ne.symm hne, han, hbn, by rw [sqDist_comm]; exact hd⟩
    rw [hA] at ht; exact Bool.noConfusion ht
  · rcases (find_edges_iff self g a b).mp hA with ⟨hne, han, hbn, hd⟩
    have ht : self.find_edges g b a = true :=
      (find_edges_iff self g b a).mpr
        ⟨Ne.symm hne, hbn, han, by rw [sqDist_comm]; exact hd⟩
    rw [hB] at ht; exact Bool.noConfusion ht

theorem find_edges_diag (self : UDMIS) (g : List (ℚ × ℚ)) (a : ℕ) :
    self.find_edges g a a = false := by
  cases h : self.find_edges g a a with
  | false => rfl
  | true =>
    rcases (find_edges_iff self g a a).mp h with ⟨hne, _⟩
    exact absurd rfl hne

/-! ### Effect of a single toggle on the two sums -/

theorem toggle_getD (self : UDMIS) (i j : ℕ)
    (hlen : self.occupations.length = self.num_vertices)
    (hi : i < self.num_vertices) :
    (self.toggle i).occupations.getD j false
      = if j = i then !(self.occupations.getD i false)
        else self.occupations.getD j false := by
  simp only [UDMIS.toggle]
  by_cases hji : j = i
  · subst hji
    rw [if_pos rfl, List.getD_eq_getElem?_getD,
        List.getElem?_set_self (by omega), Option.getD_some]
  · rw [if_neg hji, List.getD_eq_getElem?_getD,
        List.getElem?_set_ne (fun h => hji h.symm), ← List.getD_eq_getElem?_getD]

theorem sum_toggle_vertex (n i : ℕ) (o : ℕ → ℚ) (X : ℚ) (hi : i < n) :
    (∑ a ∈ Finset.range n, (if a = i then X else o a))
      = (∑ a ∈ Finset.range n, o a) + (X - o i) := by
  have h : (∑ a ∈ Finset.range n, ((if a = i then X else o a) - o a)) = X - o i := by
    have hcongr : ∀ a ∈ Finset.range n,
        ((if a = i then X else o a) - o a) = (if a = i then X - o i else 0) := by
      intro a _
      by_cases hai : a = i
      · subst hai; rw [if_pos rfl, if_pos rfl]
      · rw [if_neg hai, if_neg hai, sub_self]
    rw [Finset.sum_congr rfl hcongr,
        Finset.sum_ite_eq' (Finset.range n) i (fun _ => X - o i),
        if_pos (Finset.mem_range.mpr hi)]
  rw [Finset.sum_sub_distrib] at h
  linarith

theorem sum_toggle_main (n i : ℕ) (E : ℕ → ℕ → Bool) (o : ℕ → ℚ) (X : ℚ)
    (hsym : ∀ a b, E a b = E b a) (hirr : ∀ a, E a a = false) (hi : i < n) :
    (∑ a ∈ Finset.range n, ∑ b ∈ Finset.Ico (a + 1) n,
        if E a b then (if a = i then X else o a) * (if b = i then X else o b) else 0)
      = (∑ a ∈ Finset.range n, ∑ b ∈ Finset.Ico (a + 1) n,
          if E a b then o a * o b else 0)
        + (X - o i) * (∑ j ∈ Finset.range n, if E i j then o j else 0) := by
  have hpoint : ∀ a ∈ Finset.range n, ∀ b ∈ Finset.Ico (a + 1) n,
      ((if E a b then (if a = i then X else o a) * (if b = i then X else o b) else 0)
        - (if E a b then o a * o b else 0))
      = (if a = i then (X - o i) * (if E i b then o b else 0)
         else if b = i then (X - o i) * (if E a i then o a else 0) else 0) := by
    intro a ha b hb
    have hab : a < b := by have := Finset.mem_Ico.mp hb; omega
    by_cases hai : a = i
    · have hbi : ¬ b = i := by omega
      simp only [if_pos hai, if_neg hbi]
      rw [hai]
      by_cases hE : E i b = true
      · simp only [if_pos hE]; ring
      · simp only [if_neg hE]; ring
    · by_cases hbi : b = i
      · simp only [if_neg hai, if_pos hbi]
        rw [hbi]
        by_cases hE : E a i = true
        · simp only [if_pos hE]; ring
        · simp only [if_neg hE]; ring
      · simp only [if_neg hai, if_neg hbi, sub_self]
  have hK : (∑ j ∈ Finset.range n, if E i j then o j else 0)
      = (∑ a ∈ Finset.range i, if E a i then o a else 0)
        + (∑ b ∈ Finset.Ico (i + 1) n, if E i b then o b else 0) := by
    rw [Finset.range_eq_Ico,
        ← Finset.sum_Ico_consecutive _ (Nat.zero_le i) (le_of_lt hi),
        Finset.sum_eq_sum_Ico_succ_bot hi, hirr i]
    simp only [Bool.false_eq_true, if_false, zero_add]
    rw [← Finset.range_eq_Ico]
    have hcongr : ∀ a ∈ Finset.range i,
        (if E i a then o a else 0) = (if E a i then o a else 0) := by
      intro a _; rw [hsym i a]
    rw [Finset.sum_congr rfl hcongr]
  have hsub : (∑ a ∈ Finset.range n, ∑ b ∈ Finset.Ico (a + 1) n,
      (if a = i then (X - o i) * (if E i b then o b else 0)
       else if b = i then (X - o i) * (if E a i then o a else 0) else 0))
      = (X - o i) * (∑ j ∈ Finset.range n, if E i j then o j else 0) := by
    have hin : i ∈ Finset.range n := Finset.mem_range.mpr hi
    rw [← Finset.add_sum_erase (Finset.range n) _ hin]
    have hself : (∑ b ∈ Finset.Ico (i + 1) n,
        (if i = i then (X - o i) * (if E i b then o b else 0)
         else if b = i then (X - o i) * (if E i i then o i else 0) else 0))
        = (X - o i) * (∑ b ∈ Finset.Ico (i + 1) n, if E i b then o b else 0) := by
      simp only [eq_self_iff_true, if_true]
      rw [Finset.mul_sum]
    have herase : (∑ a ∈ (Finset.range n).erase i,
        ∑ b ∈ Finset.Ico (a + 1) n,
          (if a = i then (X - o i) * (if E i b then o b else 0)
           else if b = i then (X - o i) * (if E a i then o a else 0) else 0))
        = (X - o i) * (∑ a ∈ Finset.range i, if E a i then o a else 0) := by
      have hstep : ∀ a ∈ (Finset.range n).erase i,
          (∑ b ∈ Finset.Ico (a + 1) n,
            (if a = i then (X - o i) * (if E i b then o b else 0)
             else if b = i then (X - o i) * (if E a i then o a else 0) else 0))
          = (if a < i then (X - o i) * (if E a i then o a else 0) else 0) := by
        intro a ha
        obtain ⟨hane, han⟩ := Finset.mem_erase.mp ha
        have han' : a < n := Finset.mem_range.mp han
        simp only [if_neg hane]
        rw [Finset.sum_ite_eq' (Finset.Ico (a + 1) n) i
            (fun _ => (X - o i) * (if E a i then o a else 0))]
        by_cases hlt : a < i
        · rw [if_pos (Finset.mem_Ico.mpr (by omega)), if_pos hlt]
        · rw [if_neg (fun hm => hlt (by have := Finset.mem_Ico.mp hm; omega)),
              if_neg hlt]
      rw [Finset.sum_congr rfl hstep,
          Finset.sum_erase _ (by rw [if_neg (lt_irrefl i)]),
          ← Finset.sum_filter]
      have hfilter : (Finset.range n).filter (fun a => a < i) = Finset.range i := by
        ext a
        simp only [Finset.mem_filter, Finset.mem_range]
        omega
      rw [hfilter, Finset.mul_sum]
    rw [hself, herase, hK]
    ring
  have hsplit : (∑ a ∈ Finset.range n, ∑ b ∈ Finset.Ico (a + 1) n,
      if E a b then (if a = i then X else o a) * (if b = i then X else o b) else 0)
      - (∑ a ∈ Finset.range n, ∑ b ∈ Finset.Ico (a + 1) n,
          if E a b then o a * o b else 0)
      = (X - o i) * (∑ j ∈ Finset.range n, if E i j then o j else 0) := by
    have h1 : ∀ a ∈ Finset.range n,
        ((∑ b ∈ Finset.Ico (a + 1) n,
            if E a b then (if a = i then X else o a) * (if b = i then X else o b) else 0)
          - ∑ b ∈ Finset.Ico (a + 1) n, if E a b then o a * o b else 0)
        = ∑ b ∈ Finset.Ico (a + 1) n,
            (if a = i then (X - o i) * (if E i b then o b else 0)
             else if b = i then (X - o i) * (if E a i then o a else 0) else 0) := by
      intro a ha
      rw [← Finset.sum_sub_distrib]
      exact Finset.sum_congr rfl (fun b hb => hpoint a ha b hb)
    rw [← Finset.sum_sub_distrib, Finset.sum_congr rfl h1, hsub]
  linarith [hsplit]

/-- The constructor stores exactly the matrix built by `find_edges`. -/
theorem init_edges (u : ℚ) (graph g_graph : List (ℚ × ℚ)) (randocc : List Bool) :
    (UDMIS.init u graph g_graph randocc).edges
      = (UDMIS.init u graph g_graph randocc).find_edges g_graph := rfl

/-- A unit-distance two-point coordinate list (distance exactly `1`). -/
def demoUnit : List (ℚ × ℚ) := [(0, 0), (1, 0)]

/-! ## The claims -/

/-- C1: Delta/full consistency — for every (symmetric, loop-free) adjacency
matrix, every global `u`, every configuration and every vertex `i < n`,
the total energy after toggling occupation `i` minus the total energy
before equals `energy_diff(i)` on the pre-toggle configuration.  In the
exact-rational embedding the identity is exact (the spec's floating-point
tolerance is not needed). -/
theorem energy_flip_delta_consistent (self : UDMIS) (g_u : ℚ) (i : ℕ)
    (hsym : ∀ a b, self.edges a b = self.edges b a)
    (hirr : ∀ a, self.edges a a = false)
    (hlen : self.occupations.length = self.num_vertices)
    (hi : i < self.num_vertices) :
    (self.toggle i).energy g_u - self.energy g_u = self.energy_diff g_u i := by
  have hn : 0 < self.num_vertices := by omega
  have htog_ov : ∀ j, (self.toggle i).ov j
      = if j = i then occVal (!(self.occupations.getD i false)) else self.ov j := by
    intro j
    by_cases hji : j = i
    · rw [if_pos hji]
      simp only [UDMIS.ov]
      rw [toggle_getD self i j hlen hi, if_pos hji]
    · rw [if_neg hji]
      simp only [UDMIS.ov]
      rw [toggle_getD self i j hlen hi, if_neg hji]
  rw [energy_eq_sum (self.toggle i) g_u hn, energy_eq_sum self g_u hn,
      energy_diff_sum self g_u i]
  simp only [show (self.toggle i).num_vertices = self.num_vertices from rfl,
             show (self.toggle i).edges = self.edges from rfl, htog_ov]
  rw [sum_toggle_main self.num_vertices i self.edges self.ov
        (occVal (!(self.occupations.getD i false))) hsym hirr hi,
      sum_toggle_vertex self.num_vertices i self.ov
        (occVal (!(self.occupations.getD i false))) hi]
  have hovi : self.ov i = occVal (self.occupations.getD i false) := rfl
  rw [hovi]
  cases hocc : self.occupations.getD i false with
  | false =>
    simp only [Bool.not_false, Bool.false_eq_true, if_false,
      show occVal true = 1 from rfl, show occVal false = 0 from rfl]
    ring
  | true =>
    simp only [Bool.not_true, eq_self_iff_true, if_true,
      show occVal true = 1 from rfl, show occVal false = 0 from rfl]
    ring

/-- C1 witness: the consistency theorem applied to a concrete one-vertex
instance. -/
theorem energy_flip_delta_consistent_witness :
    (demoSingle.occupations.length = demoSingle.num_vertices
      ∧ 0 < demoSingle.num_vertices) ∧
    (demoSingle.toggle 0).energy 1 - demoSingle.energy 1
      = demoSingle.energy_diff 1 0 :=
  ⟨⟨by decide, by decide⟩,
   energy_flip_delta_consistent demoSingle 1 0 (fun _ _ => rfl) (fun _ => rfl)
     (by decide) (by decide)⟩

/-- C2: `energy_diff(i)` equals `-u*k + 1` when vertex `i` is occupied and
`u*k - 1` when it is unoccupied, where `k` counts the occupied neighbours
of `i` (row `i` of the adjacency matrix). -/
theorem energy_diff_closed_form (self : UDMIS) (g_u : ℚ) (i : ℕ) :
    self.energy_diff g_u i =
      if self.occupations.getD i false then
        -g_u * (((Finset.range self.num_vertices).filter
            (fun j => self.edges i j = true
              ∧ self.occupations.getD j false = true)).card : ℚ) + 1
      else
        g_u * (((Finset.range self.num_vertices).filter
            (fun j => self.edges i j = true
              ∧ self.occupations.getD j false = true)).card : ℚ) - 1 := by
  have hsum : (∑ j ∈ Finset.range self.num_vertices,
      if self.edges i j then self.ov j else 0)
      = ∑ j ∈ Finset.range self.num_vertices,
          if (self.edges i j = true ∧ self.occupations.getD j false = true)
          then (1 : ℚ) else 0 := by
    refine Finset.sum_congr rfl (fun j _ => ?_)
    simp only [UDMIS.ov, occVal]
    by_cases h1 : self.edges i j = true
    · by_cases h2 : self.occupations.getD j false = true
      · simp [h1, h2]
      · simp [h1, h2]
    · simp [h1]
  rw [energy_diff_sum self g_u i, hsum, Finset.sum_boole]
  by_cases hocc : self.occupations.getD i false = true
  · rw [if_pos hocc, if_pos hocc]
  · rw [if_neg hocc, if_neg hocc]; ring

/-- C3: `energy()` returns `u` times the sum of `n_i*n_j` over unordered
adjacent pairs `(i, j)` with `i < j`, each edge counted once, minus the
sum of `n_i` over all vertices (including the last one), each counted
once — for every nonempty graph. -/
theorem energy_closed_form (self : UDMIS) (g_u : ℚ)
    (h : 0 < self.num_vertices) :
    self.energy g_u =
      g_u * (∑ p ∈ (Finset.range self.num_vertices ×ˢ
              Finset.range self.num_vertices).filter
              (fun p => p.1 < p.2 ∧ self.edges p.1 p.2 = true),
              self.ov p.1 * self.ov p.2)
        - ∑ i ∈ Finset.range self.num_vertices, self.ov i := by
  rw [energy_eq_sum self g_u h]
  congr 1
  congr 1
  rw [Finset.sum_filter, Finset.sum_product]
  dsimp only
  refine Finset.sum_congr rfl (fun a ha => ?_)
  symm
  have hpt : ∀ b ∈ Finset.range self.num_vertices,
      (if a < b ∧ self.edges a b = true then self.ov a * self.ov b else 0)
      = (if a < b then (if self.edges a b then self.ov a * self.ov b else 0)
         else 0) := by
    intro b _
    by_cases h1 : a < b
    · by_cases h2 : self.edges a b = true
      · simp [h1, h2]
      · simp [h1, h2]
    · simp [h1]
  have hfilter : (Finset.range self.num_vertices).filter (fun b => a < b)
      = Finset.Ico (a + 1) self.num_vertices := by
    ext b
    simp only [Finset.mem_filter, Finset.mem_range, Finset.mem_Ico]
    omega
  rw [Finset.sum_congr rfl hpt, ← Finset.sum_filter, hfilter]

/-- C3 witness: the closed form evaluated on a concrete two-vertex
instance. -/
theorem energy_closed_form_witness :
    0 < demoModel.num_vertices ∧
    demoModel.energy 1 =
      1 * (∑ p ∈ (Finset.range demoModel.num_vertices ×ˢ
            Finset.range demoModel.num_vertices).filter
            (fun p => p.1 < p.2 ∧ demoModel.edges p.1 p.2 = true),
            demoModel.ov p.1 * demoModel.ov p.2)
        - ∑ i ∈ Finset.range demoModel.num_vertices, demoModel.ov i :=
  ⟨by decide, energy_closed_form demoModel 1 (by decide)⟩

/-- C4: threshold exactness — for distinct in-range vertices `a`, `b`, the
built matrix has `edges[a][b] = true` iff the Euclidean distance between
their (global) coordinates is at most `1.0` inclusive. -/
theorem edges_iff_dist_le_one (self : UDMIS) (g : List (ℚ × ℚ)) (a b : ℕ)
    (hab : a ≠ b) (ha : a < self.num_vertices) (hb : b < self.num_vertices) :
    self.find_edges g a b = true
      ↔ Real.sqrt ((sqDist (g.getD a (0, 0)) (g.getD b (0, 0)) : ℚ) : ℝ) ≤ 1 := by
  rw [find_edges_iff, Real.sqrt_le_left (by norm_num : (0 : ℝ) ≤ 1), one_pow]
  constructor
  · rintro ⟨-, -, -, hd⟩
    exact_mod_cast hd
  · intro hd
    exact ⟨hab, ha, hb, by exact_mod_cast hd⟩

/-- C4 witness: two vertices at distance exactly `1` are adjacent. -/
theorem edges_iff_dist_le_one_witness :
    ((0 : ℕ) ≠ 1 ∧ 0 < demoModel.num_vertices ∧ 1 < demoModel.num_vertices) ∧
    (demoModel.find_edges demoUnit 0 1 = true
      ↔ Real.sqrt ((sqDist (demoUnit.getD 0 (0, 0))
          (demoUnit.getD 1 (0, 0)) : ℚ) : ℝ) ≤ 1) :=
  ⟨⟨by decide, by decide, by decide⟩,
   edges_iff_dist_le_one demoModel demoUnit 0 1 (by decide) (by decide) (by decide)⟩

/-- C5: the adjacency relation produced by `find_edges` is symmetric and
has no self-loops, and the single mutation the engine ever performs
(toggling an occupation) leaves the `edges` field untouched. -/
theorem edges_symm_irrefl (self : UDMIS) (g : List (ℚ × ℚ)) (a b i : ℕ) :
    self.find_edges g a b = self.find_edges g b a
      ∧ self.find_edges g a a = false
      ∧ (self.toggle i).edges = self.edges :=
  ⟨find_edges_symm self g a b, find_edges_diag self g a, rfl⟩

/-- C6 counterexample: construction does NOT reject invalid input — an
empty coordinate list and `u = 0`, or `u = -1`, are accepted silently and
the resulting instance even evaluates `energy` normally. -/
theorem init_no_validation_counterexample :
    (UDMIS.init 0 [] [] []).num_vertices = 0 ∧
    (UDMIS.init 0 [] [] []).u = 0 ∧
    (UDMIS.init (-1) [((0 : ℚ), 0)] [((0 : ℚ), 0)] [true]).u = -1 ∧
    (UDMIS.init (-1) [((0 : ℚ), 0)] [((0 : ℚ), 0)] [true]).energy (-1) = -1 :=
  ⟨rfl, rfl, rfl, by
    norm_num [UDMIS.init, UDMIS.energy, occVal,
      show List.range 0 = ([] : List ℕ) from rfl]⟩

/-- C6 (amended): construction performs no validation at all — every `u`
(including `u ≤ 0`) and every coordinate list (including the empty one)
is accepted; the constructor stores the inputs unchecked and builds the
adjacency matrix. -/
theorem init_accepts_all_inputs (u : ℚ) (graph g_graph : List (ℚ × ℚ))
    (randocc : List Bool) :
    (UDMIS.init u graph g_graph randocc).u = u ∧
    (UDMIS.init u graph g_graph randocc).graph = graph ∧
    (UDMIS.init u graph g_graph randocc).num_vertices = graph.length ∧
    (UDMIS.init u graph g_graph randocc).occupations = randocc ∧
    (UDMIS.init u graph g_graph randocc).edges
      = (UDMIS.init u graph g_graph randocc).find_edges g_graph :=
  ⟨rfl, rfl, rfl, rfl, init_edges u graph g_graph randocc⟩

/-- C7: a zero- or one-vertex input is handled without failure and yields
an edge-free graph (the whole adjacency relation is `false`). -/
theorem degenerate_graph_edge_free (u : ℚ) (graph g_graph : List (ℚ × ℚ))
    (randocc : List Bool) (a b : ℕ) (h : graph.length ≤ 1) :
    (UDMIS.init u graph g_graph randocc).edges a b = false := by
  rw [init_edges]
  cases he : (UDMIS.init u graph g_graph randocc).find_edges g_graph a b with
  | false => rfl
  | true =>
    rcases (find_edges_iff _ _ a b).mp he with ⟨hne, ha, hb, -⟩
    have hn : (UDMIS.init u graph g_graph randocc).num_vertices
        = graph.length := rfl
    rw [hn] at ha hb
    exact absurd (show a = b from by omega) hne

/-- C7 witness: a one-vertex construction succeeds and has no edges. -/
theorem degenerate_graph_edge_free_witness :
    ([((0 : ℚ), 0)] : List (ℚ × ℚ)).length ≤ 1 ∧
    (UDMIS.init 1 [((0 : ℚ), 0)] [((0 : ℚ), 0)] [true]).edges 0 1 = false :=
  ⟨by decide,
   degenerate_graph_edge_free 1 [((0 : ℚ), 0)] [((0 : ℚ), 0)] [true] 0 1 (by decide)⟩

/-- C8: the annealing loop drives the step engine once for each
`t = 0 … N-1`, and the temperature used at step `t` is exactly
`T_i * (T_f/T_i) ^ (t/N)` (with the floating `**` abstracted as `powf`). -/
theorem anneal_schedule_formula {σ : Type} (step : ℚ → σ → σ)
    (powf : ℚ → ℚ → ℚ) (T_i T_f : ℚ) (N : ℕ) (s0 : σ) :
    anneal_run step powf T_i T_f N s0
      = (List.range N).foldl
          (fun (s : σ) (t : ℕ) =>
            step (T_i * powf (T_f / T_i) ((t : ℚ) / (N : ℚ))) s) s0 := by
  unfold anneal_run
  refine foldl_congr_mem (List.range N) _ _ s0 (fun s t ht => ?_)
  have htN : t < N + 1 := by have := List.mem_range.mp ht; omega
  congr 1
  unfold T_schedule
  rw [List.getD_eq_getElem?_getD,
      List.getElem?_eq_getElem (by simpa using htN), Option.getD_some,
      List.getElem_map, List.getElem_range]

/-- C9: with `T ≤ 0` the Metropolis step degenerates to the strict greedy
rule — a proposed flip is accepted iff its energy delta is nonpositive —
and the exponential branch is never taken (no `exp(-delta/0)` is
evaluated). -/
theorem mc_step_greedy_at_nonpositive_T (expf : ℚ → ℚ) (T delta r : ℚ)
    (hT : T ≤ 0) :
    mc_step_accept expf T delta r = decide (delta ≤ 0) := by
  by_cases hD : delta ≤ 0 <;> simp [mc_step_accept, hD, hT]

/-- C9 witness: at `T = 0` an uphill move (`delta = 1`) is rejected. -/
theorem mc_step_greedy_at_nonpositive_T_witness :
    (0 : ℚ) ≤ 0 ∧ mc_step_accept id 0 1 (1/2) = decide ((1 : ℚ) ≤ 0) :=
  ⟨le_refl 0, mc_step_greedy_at_nonpositive_T id 0 1 (1/2) (le_refl 0)⟩

/-- C10: `energy`, `energy_diff` and `find_edges` are insensitive to the
instance fields `self.u` / `self.graph` and read the notebook globals
instead: changing the stored fields changes nothing, while changing the
global `u` or the global `graph` changes the results of a fixed
instance. -/
theorem methods_read_globals :
    (∀ (self : UDMIS) (u' g_u : ℚ) (i : ℕ),
        UDMIS.energy { self with u := u' } g_u = UDMIS.energy self g_u ∧
        UDMIS.energy_diff { self with u := u' } g_u i
          = UDMIS.energy_diff self g_u i) ∧
    (∀ (self : UDMIS) (G g_graph : List (ℚ × ℚ)),
        UDMIS.find_edges { self with graph := G } g_graph
          = UDMIS.find_edges self g_graph) ∧
    UDMIS.energy demoModel 1 ≠ UDMIS.energy demoModel 2 ∧
    UDMIS.find_edges demoModel demoFar 0 1 = false ∧
    UDMIS.find_edges demoModel demoNear 0 1 = true :=
  ⟨fun _ _ _ _ => ⟨rfl, rfl⟩, fun _ _ _ => rfl,
   by
     norm_num [UDMIS.energy, demoModel, occVal,
       show List.range 1 = [0] from rfl, show List.range' 1 1 = [1] from rfl],
   by
     norm_num [UDMIS.find_edges, demoModel, demoFar, sqDist, updE,
       show List.range 1 = [0] from rfl, show List.range' 1 1 = [1] from rfl],
   by
     norm_num [UDMIS.find_edges, demoModel, demoNear, sqDist, updE,
       show List.range 1 = [0] from rfl, show List.range' 1 1 = [1] from rfl]⟩

end UDMISModel
